import Mathlib

/-!
Verification of the mini-ssg content pipeline (src/src/*.rs) against its
natural-language specification.  Strings are modelled as `List Char`
(Rust operates on UTF-8 bytes; all delimiters involved are ASCII, and
byte order of UTF-8 agrees with code-point order, so the character-level
model is faithful for every property stated here).  External
collaborators (the markdown engine, the tera template engine, the url
crate, the toml deserializer, the syntax highlighter) are passed in as
abstract function parameters, exactly as the spec declares them out of
scope.
-/

namespace MiniSsg

abbrev Str := List Char

/-- Model of Rust `char::is_whitespace` restricted to the ASCII
whitespace characters (the only ones exercised by the pipeline). -/
def isWsChar (c : Char) : Bool :=
  c == ' ' || c == '\t' || c == '\n' || c == '\r' || c == '\x0b' || c == '\x0c'

/-- `markdown.rs` line 39: a shortcode identifier character,
`c.is_alphanumeric() || c == '_'` (modelled for ASCII). -/
def isIdentChar (c : Char) : Bool :=
  c.isAlphanum || c == '_'

/-- Rust `str::trim_start` (ASCII whitespace). -/
def trimStartA (s : Str) : Str := s.dropWhile isWsChar

/-- Rust `str::trim_end` (ASCII whitespace). -/
def trimEndA (s : Str) : Str := (s.reverse.dropWhile isWsChar).reverse

/-- Rust `str::trim` (ASCII whitespace). -/
def trimA (s : Str) : Str := trimStartA (trimEndA s)

/-- Rust `str::eq_ignore_ascii_case`. -/
def eqIgnoreAsciiCase (a b : Str) : Bool :=
  a.map Char.toLower == b.map Char.toLower

/-- The slice `&s[a..b]` of a Rust string (half-open byte range). -/
def extract (s : Str) (a b : Nat) : Str := (s.drop a).take (b - a)

/-- Rust `String::replace_range(a..b, v)`. -/
def replaceRange (s : Str) (a b : Nat) (v : Str) : Str :=
  s.take a ++ v ++ s.drop b

/-- Rust `str::find(pat)`: byte offset of the first occurrence of the
substring `pat`, if any. -/
def findSub (pat : Str) : Str → Option Nat
  | [] => if pat.isPrefixOf ([] : Str) then some 0 else none
  | c :: rest =>
    if pat.isPrefixOf (c :: rest) then some 0
    else (findSub pat rest).map (· + 1)

/-- Rust `str::strip_suffix(suf).unwrap_or(s)` as used by
`Config::make_permalink` (main.rs lines 142-145). -/
def stripSuffixOr (s suf : Str) : Str :=
  if suf.isSuffixOf s then s.take (s.length - suf.length) else s

/-! ## Content splicer (markdown.rs lines 144-194) -/

def mdOpenTok : Str := ['{', '{']
def mdCloseTok : Str := ['}', '}']

/-- `markdown.rs` lines 144-147. -/
inductive ContentRange where
  | markdown (a b : Nat)
  | shortCode (a b : Nat)
deriving DecidableEq, Repr

def ContentRange.lo : ContentRange → Nat
  | .markdown a _ => a
  | .shortCode a _ => a

def ContentRange.hi : ContentRange → Nat
  | .markdown _ b => b
  | .shortCode _ b => b

/-- The while loop of `render_content` (markdown.rs lines 159-177):
scan for `{{`/`}}` pairs from offset `last`, recording markdown and
shortcode ranges in forward order.  `none` models the
`Err("unterminated shortcode")` return.  The Rust loop terminates
because `last` strictly increases by at least 2 on every iteration, so
`input.length + 1` units of fuel always suffice; running out of fuel is
unreachable from `scanRanges` below. -/
def scanRangesF (input : Str) : Nat → Nat → Option (List ContentRange)
  | 0, _ => none
  | fuel + 1, last =>
    match findSub mdOpenTok (input.drop last) with
    | none =>
      if last < input.length then some [ContentRange.markdown last input.length]
      else some []
    | some s =>
      match findSub mdCloseTok (input.drop (last + s)) with
      | none => none
      | some e =>
        match scanRangesF input fuel (last + s + e + 2) with
        | none => none
        | some rest =>
          if 0 < s then
            some (ContentRange.markdown last (last + s)
              :: ContentRange.shortCode (last + s) (last + s + e + 2) :: rest)
          else
            some (ContentRange.shortCode (last + s) (last + s + e + 2) :: rest)

def scanRanges (input : Str) : Option (List ContentRange) :=
  scanRangesF input (input.length + 1) 0

/-- One in-place substitution step of the reverse pass
(markdown.rs lines 181-191): read the range out of the current string,
render it (`rm` = `render_markdown`, `rs` = `render_shortcode`, both
external collaborators returning `none` on error) and splice the result
back in place. -/
def renderRange (rm rs : Str → Option Str) (cur : Str) :
    ContentRange → Option Str
  | .markdown a b => (rm (extract cur a b)).map (replaceRange cur a b)
  | .shortCode a b => (rs (extract cur a b)).map (replaceRange cur a b)

/-- The `for range in ranges` loop over the (already reversed) range
list, threading the mutated string. -/
def applySubsts (rm rs : Str → Option Str) : Str → List ContentRange → Option Str
  | cur, [] => some cur
  | cur, r :: rest =>
    match renderRange rm rs cur r with
    | none => none
    | some nxt => applySubsts rm rs nxt rest

/-- `render_content` (markdown.rs lines 149-194): record ranges in
forward order, reverse, and rewrite each range in place. -/
def renderContent (input : Str) (rm rs : Str → Option Str) : Option Str :=
  match scanRanges input with
  | none => none
  | some ranges => applySubsts rm rs input ranges.reverse

/-- Render of a single range taken from the ORIGINAL input (spec side). -/
def renderOne (rm rs : Str → Option Str) (input : Str) : ContentRange → Option Str
  | .markdown a b => rm (extract input a b)
  | .shortCode a b => rs (extract input a b)

/-- Forward concatenation, in original input order, of the render of
each range (spec side). -/
def renderForward (rm rs : Str → Option Str) (input : Str) :
    List ContentRange → Option Str
  | [] => some []
  | r :: rest =>
    match renderOne rm rs input r, renderForward rm rs input rest with
    | some v, some vs => some (v ++ vs)
    | _, _ => none

/-- Modelled from the spec: "build the output by simple forward
concatenation of per-range renders" over the same recorded ranges. -/
def renderContentFwd (input : Str) (rm rs : Str → Option Str) : Option Str :=
  match scanRanges input with
  | none => none
  | some ranges => renderForward rm rs input ranges

/-- The recorded ranges form a contiguous ascending partition of
`[a, n)`: each range starts where the previous one stopped and all
bounds stay inside the input. -/
inductive Chain (n : Nat) : Nat → List ContentRange → Prop where
  | nil : Chain n n []
  | cons (r : ContentRange) (rest : List ContentRange) (a : Nat) :
      r.lo = a → a ≤ r.hi → r.hi ≤ n → Chain n r.hi rest → Chain n a (r :: rest)

/-! ## Shortcode parser (markdown.rs lines 19-63)

The combine-based parser is embedded combinator by combinator.  Parser
state is a byte position plus the remaining input; a result records
whether input was consumed, because `sep_by` stops cleanly only on a
failure that consumed nothing (parsec/combine semantics). -/

structure PState where
  pos : Nat
  rest : Str
deriving DecidableEq, Repr

inductive PRes (α : Type) where
  | ok (a : α) (st : PState) (consumed : Bool)
  | err (pos : Nat) (consumed : Bool)
deriving DecidableEq, Repr

/-- `spaces()`: skip zero or more whitespace characters. -/
def runSpacesAux (p : Nat) : Str → PState
  | [] => ⟨p, []⟩
  | c :: cs => if isWsChar c then runSpacesAux (p + 1) cs else ⟨p, c :: cs⟩

def runSpaces (st : PState) : PState := runSpacesAux st.pos st.rest

/-- `lit(l)` (markdown.rs lines 31-36): the literal string `l` followed
by `spaces()`. -/
def runLit (l : Str) (st : PState) : PRes Unit :=
  if l.isPrefixOf st.rest then
    PRes.ok () (runSpacesAux (st.pos + l.length) (st.rest.drop l.length)) true
  else PRes.err st.pos false

/-- `ident()` (markdown.rs line 39): `take_while(is_alphanumeric || '_')`
followed by `spaces()`.  `take_while` accepts ZERO or more characters,
so this parser never fails. -/
def runIdent (st : PState) : PRes Str :=
  let tk := st.rest.takeWhile isIdentChar
  let rest1 := st.rest.drop tk.length
  let st1 := runSpacesAux (st.pos + tk.length) rest1
  PRes.ok tk st1 (!tk.isEmpty || st1.rest.length != rest1.length)

/-- `literal_str` (markdown.rs line 40):
`between(lit("\""), lit("\""), take_while(c != '"')).skip(spaces())`.
Note that `lit("\"")` itself skips whitespace after the opening quote,
and the closing `lit("\"")` already skips the trailing whitespace that
the outer `.skip(spaces())` would consume. -/
def runStrLit (st : PState) : PRes Str :=
  match runLit ['"'] st with
  | .err p c => .err p c
  | .ok _ st1 _ =>
    let tk := st1.rest.takeWhile (fun c => c != '"')
    let st2 : PState := ⟨st1.pos + tk.length, st1.rest.drop tk.length⟩
    match runLit ['"'] st2 with
    | .err p _ => .err p true
    | .ok _ st3 _ => .ok tk (runSpaces st3) true

/-- markdown.rs lines 19-23. -/
structure Argument where
  name : Str
  value : Str
deriving DecidableEq, Repr

/-- markdown.rs lines 25-29. -/
structure ShortCode where
  name : Str
  arguments : List Argument
deriving DecidableEq, Repr

/-- `arg` (markdown.rs lines 41-44): `(ident(), lit("="), literal_str)`.
A failure after the identifier or the `=` consumed input, so it
propagates as a consuming failure. -/
def runArg (st : PState) : PRes Argument :=
  match runIdent st with
  | .err p c => .err p c
  | .ok n st1 c1 =>
    match runLit ['='] st1 with
    | .err p c2 => .err p (c1 || c2)
    | .ok _ st2 _ =>
      match runStrLit st2 with
      | .err p _ => .err p true
      | .ok v st3 _ => .ok ⟨n, v⟩ st3 true

/-- The tail of `sep_by(arg, lit(","))`: repeatedly a separator then an
argument.  A separator failure (necessarily consuming nothing, the
separator being a single `,`) ends the list; any argument failure after
a consumed separator is fatal.  Fuel only bounds the loop: every
iteration consumes at least the comma, so `rest.length + 1` units
always suffice (see `runArgList`). -/
def runArgsTailF : Nat → PState → PRes (List Argument)
  | 0, st => .err st.pos true
  | fuel + 1, st =>
    match runLit [','] st with
    | .err _ _ => .ok [] st true
    | .ok _ st1 _ =>
      match runArg st1 with
      | .err p _ => .err p true
      | .ok a st2 _ =>
        match runArgsTailF fuel st2 with
        | .err p c => .err p c
        | .ok as st3 c => .ok (a :: as) st3 c

/-- `arg_list = sep_by(arg, lit(","))` (markdown.rs line 45): zero or
more arguments.  A first-argument failure that consumed nothing yields
the empty list. -/
def runArgList (st : PState) : PRes (List Argument) :=
  match runArg st with
  | .err p true => .err p true
  | .err _ false => .ok [] st false
  | .ok a st1 _ =>
    match runArgsTailF (st1.rest.length + 1) st1 with
    | .err p c => .err p c
    | .ok as st2 c => .ok (a :: as) st2 c

/-- `args = between(lit("("), lit(")"), arg_list)` (markdown.rs line 46). -/
def runArgs (st : PState) : PRes (List Argument) :=
  match runLit ['('] st with
  | .err p c => .err p c
  | .ok _ st1 _ =>
    match runArgList st1 with
    | .err p _ => .err p true
    | .ok l st2 _ =>
      match runLit [')'] st2 with
      | .err p _ => .err p true
      | .ok _ st3 _ => .ok l st3 true

/-- `function = between(lit("{{"), lit("}}"), (ident(), args))`
(markdown.rs lines 48-55). -/
def runShortCode (st : PState) : PRes ShortCode :=
  match runLit ['{', '{'] st with
  | .err p c => .err p c
  | .ok _ st1 _ =>
    match runIdent st1 with
    | .err p _ => .err p true
    | .ok n st2 _ =>
      match runArgs st2 with
      | .err p _ => .err p true
      | .ok args st3 _ =>
        match runLit ['}', '}'] st3 with
        | .err p _ => .err p true
        | .ok _ st4 _ => .ok ⟨n, args⟩ st4 true

/-- `parse_shortcode` (markdown.rs lines 38-63): `easy_parse` from
offset 0; on success the remaining input is discarded (`result.0`), on
failure the error carries the translated byte offset. -/
def parseShortcode (input : Str) : Except Nat ShortCode :=
  match runShortCode ⟨0, input⟩ with
  | .ok sc _ _ => .ok sc
  | .err p _ => .error p

/-- Canonical rendering of one argument: `name="value"`. -/
def argChars (a : Argument) : Str :=
  a.name ++ '=' :: '"' :: a.value ++ ['"']

/-- Canonical rendering of second-and-later arguments: `,name="value"…`. -/
def joinTail : List Argument → Str
  | [] => []
  | a :: as => ',' :: argChars a ++ joinTail as

/-- Canonical comma-separated argument list. -/
def argsChars : List Argument → Str
  | [] => []
  | a :: as => argChars a ++ joinTail as

/-- Canonical shortcode span `{{name(a1="v1",…)}}`. -/
def buildShortCode (name : Str) (args : List Argument) : Str :=
  '{' :: '{' :: name ++ '(' :: argsChars args ++ [')', '}', '}']

/-- First character (if any) is not whitespace. -/
def headNotWs : Str → Bool
  | [] => true
  | c :: _ => !isWsChar c

/-- First character (if any) is not an identifier character. -/
def headNotIdent : Str → Bool
  | [] => true
  | c :: _ => !isIdentChar c

/-- Well-formedness of one canonical argument: identifier-only name, a
value without `"` whose first character is not whitespace (the parser
skips whitespace right after the opening quote). -/
def argWf (a : Argument) : Bool :=
  a.name.all isIdentChar && a.value.all (fun c => c != '"') && headNotWs a.value

/-! ## Frontmatter extractor (frontmatter.rs) -/

def fmMarker : Str := ['+', '+', '+']

/-- Outcome of `frontmatter::parse`.  `panicked` models a Rust
`.expect(msg)` panic (a process abort, not a returned error);
`errNotAtStart` models the returned
`Err(anyhow!("frontmatter not at beginning of file"))`. -/
inductive FmResult where
  | ok (fm body : Str)
  | errNotAtStart
  | panicked (msg : Str)
deriving DecidableEq, Repr

/-- `frontmatter::parse` (frontmatter.rs lines 3-27), with the external
toml deserialization factored out: on success it returns the trimmed
frontmatter text (the argument Rust hands to `toml::from_str`) and the
left-trimmed body. -/
def fmParse (data : Str) : FmResult :=
  match findSub fmMarker data with
  | none => .panicked ("missing frontmatter").toList
  | some start =>
    if start ≠ 0 then .errNotAtStart
    else
      let start := start + 3
      match findSub fmMarker (data.drop start) with
      | none => .panicked ("unterminated frontmatter").toList
      | some e =>
        let fm := extract data start (start + e)
        let stop := start + e + 3
        .ok (trimA fm) (trimStartA (data.drop stop))

/-! ## Summary cut marker (main.rs lines 261-277) -/

def cmtOpenTok : Str := ['<', '!', '-', '-']
def cmtCloseTok : Str := ['-', '-', '>']

/-- The summary computation of `process_templated_files` (main.rs lines
261-277): find the FIRST `<!--`, pair it with the next `-->`, and when
the trimmed comment text equals `more` (ASCII-case-insensitively) run
the text before the comment through the full content pipeline.
The outer `Option` is the error monad of the enclosing function (a
failed `render_content` aborts the file); the inner `Option` is the
`summary` field itself. -/
def computeSummary (rm rs : Str → Option Str) (body : Str) : Option (Option Str) :=
  match findSub cmtOpenTok body with
  | none => some none
  | some start =>
    match findSub cmtCloseTok (body.drop (start + 4)) with
    | none => some none
    | some e =>
      if eqIgnoreAsciiCase (trimA (extract body (start + 4) (start + 4 + e)))
          ("more").toList then
        (renderContent (body.take start) rm rs).map some
      else some none

/-- Modelled from the spec: the raw body contains, anywhere inside it,
an HTML comment (`<!--` up to the next `-->`) whose trimmed content
case-insensitively equals `more`. -/
def existsMoreComment (body : Str) : Bool :=
  (List.range body.length).any fun i =>
    cmtOpenTok.isPrefixOf (body.drop i) &&
    (match findSub cmtCloseTok (body.drop (i + 4)) with
     | some e =>
       eqIgnoreAsciiCase (trimA (extract body (i + 4) (i + 4 + e))) ("more").toList
     | none => false)

/-- Modelled from the amended claim: the position of the first `<!--`
when the comment it opens (up to the next `-->`) trims to `more`
case-insensitively; `none` otherwise. -/
def firstMoreStart (body : Str) : Option Nat :=
  match findSub cmtOpenTok body with
  | none => none
  | some s =>
    match findSub cmtCloseTok (body.drop (s + 4)) with
    | none => none
    | some e =>
      if eqIgnoreAsciiCase (trimA (extract body (s + 4) (s + 4 + e)))
          ("more").toList then some s
      else none

/-! ## Page model (page.rs) and output paths (main.rs lines 161-175, 404-406) -/

/-- page.rs lines 16-34 (`output_path` is stored as the same string the
`PathBuf` was built from). -/
structure Page where
  name : Str
  outputPath : Str
  templateName : Str
  taxonomy : Option (Str × Str)
  title : Str
  description : Str
  date : Option Str
  permalink : Str
  content : Str
  summary : Option Str
  taxonomies : List (Str × List Str)
deriving DecidableEq, Repr

/-- `slugify` (main.rs lines 404-406): `input.replace(' ', "-")` —
every space character is replaced by a hyphen. -/
def slugify : Str → Str
  | [] => []
  | c :: cs => (if c = ' ' then '-' else c) :: slugify cs

/-- Index of the last `.` in a file name, if any. -/
def lastDotIdx (s : Str) : Option Nat :=
  (s.reverse.findIdx? (fun c => c == '.')).map (fun i => s.length - 1 - i)

/-- Rust `Path::file_stem` on a file name: the part before the last `.`,
the whole name when there is no `.` or the only `.` is leading. -/
def stripExt (s : Str) : Str :=
  match lastDotIdx s with
  | none => s
  | some 0 => s
  | some i => s.take i

/-- Rust `Path::extension` on a file name: the part after the last `.`,
`none` when there is no `.` or the only `.` is leading. -/
def extOf (s : Str) : Option Str :=
  match lastDotIdx s with
  | none => none
  | some 0 => none
  | some i => some (s.drop (i + 1))

/-- File name of a template path: the part after the last `/`. -/
def baseName (s : Str) : Str :=
  (s.reverse.takeWhile (fun c => c != '/')).reverse

/-- Apply `f` to the last path segment (Rust `with_extension` and
friends act on the file name only). -/
def mapLast (f : Str → Str) : List Str → List Str
  | [] => []
  | [x] => [f x]
  | x :: xs => x :: mapLast f xs

/-- `output_path` before the final `slugify` (main.rs lines 161-174).
Paths are modelled as their `/`-separated segments. -/
def outputPathRaw (rel : List Str) (templateName : Option Str) : Str :=
  let op := mapLast stripExt rel
  let op2 :=
    match extOf (baseName (templateName.getD [])) with
    | none => op
    | some ext =>
      if ext = ("html").toList then
        let op3 := if op.getLast? == some (("index").toList) then op.dropLast else op
        op3 ++ [("index.html").toList]
      else mapLast (fun s => stripExt s ++ '.' :: ext) op
  (op2.intersperse ['/']).flatten

/-- `output_path` (main.rs lines 161-175): the raw derivation followed
by `slugify`. -/
def outputPath (rel : List Str) (templateName : Option Str) : Str :=
  slugify (outputPathRaw rel templateName)

/-! ## Per-file page construction (main.rs lines 193-300) -/

/-- The `FrontMatter` struct (main.rs lines 120-127), after the
external toml deserialization; the `date` field is already the
`.and_then(|d| d.date).map(to_string)` of main.rs line 256. -/
structure FrontMatterData where
  title : Option Str
  date : Option Str
  template : Option Str
  description : Option Str
  taxonomies : Option (List (Str × List Str))
deriving DecidableEq, Repr

/-- What happens to one content file inside the walk loop. -/
inductive FileOutcome where
  | copiedStatic
  | skipped
  | inserted (key : Str) (page : Page)
  | errored (msg : Str)
  | panicked (msg : Str)
deriving DecidableEq, Repr

/-- main.rs line 198 (note the source lists `gif` twice). -/
def staticExts : List Str :=
  [("png").toList, ("webp").toList, ("jpg").toList, ("jpeg").toList,
   ("gif").toList, ("gif").toList]

/-- The body of the per-file loop of `process_templated_files` (main.rs
lines 204-297) for one file: `deser` is the external toml
deserializer (`none` = schema error), `rm`/`rs` the markdown/shortcode
renderers, `joinBase` the external `Url::join` against the site base
URL.  The order of the steps is the order of the source: static
extension check, read, frontmatter extraction, THEN the `_` filename
check, then rendering and insertion. -/
def processFile (deser : Str → Option FrontMatterData) (rm rs : Str → Option Str)
    (joinBase : Str → Str) (rel : List Str) (contents : Str) : FileOutcome :=
  let fname := rel.getLast?.getD []
  if ((extOf fname).map (fun e => staticExts.contains e)).getD false then
    .copiedStatic
  else
    match fmParse contents with
    | .panicked m => .panicked m
    | .errNotAtStart => .errored ("frontmatter not at beginning of file").toList
    | .ok fmText body =>
      match deser fmText with
      | none => .errored ("schema error").toList
      | some fm =>
        if fname.head? = some '_' then .skipped
        else
          let templateName := fm.template.getD ("page.html").toList
          let op := outputPath rel (some templateName)
          let permalink := joinBase (stripSuffixOr op ("index.html").toList)
          match computeSummary rm rs body with
          | none => .errored ("render error").toList
          | some summary =>
            match renderContent body rm rs with
            | none => .errored ("render error").toList
            | some content =>
              .inserted op
                { name := op
                  outputPath := op
                  templateName := templateName
                  taxonomy := none
                  title := fm.title.getD (stripExt fname)
                  description := fm.description.getD []
                  date := fm.date
                  permalink := permalink
                  content := content
                  summary := summary
                  taxonomies := fm.taxonomies.getD [] }

/-! ## Taxonomy builder (main.rs lines 357-402) -/

/-- One synthesized term page (main.rs lines 373-394). -/
def termPage (joinBase : Str → Str) (tax term : Str) : Page :=
  let templateName := tax ++ ("/single.html").toList
  let op := outputPath [tax, term] (some templateName)
  { name := op
    outputPath := op
    templateName := templateName
    taxonomy := some (tax, term)
    title := term
    description := []
    date := none
    permalink := joinBase (stripSuffixOr op ("index.html").toList)
    content := []
    summary := none
    taxonomies := [] }

/-- The term collection of main.rs lines 363-371:
`pages.values().flat_map(|p| p.taxonomies.get(&name)).flatten()`. -/
def termList (pages : List Page) (tax : Str) : List Str :=
  pages.flatMap fun p => ((p.taxonomies.lookup tax).getD [])

/-- The set of pages synthesized by the `for term in terms` loop
(main.rs lines 373-398): the `collect::<HashSet<_>>()` is modelled by
`toFinset`, the loop by the image of `termPage`. -/
def synthTermPages (joinBase : Str → Str) (pages : List Page) (tax : Str) :
    Finset Page :=
  (termList pages tax).toFinset.image (termPage joinBase tax)

/-- `GetTaxonomyURL::call` (functions/get_taxonomy_url.rs lines 25-47):
the taxonomy registry maps each configured name to itself, so a hit
returns `base_url.join(slugify(kind + "/" + name).trim())`; `join` is
the external url crate. -/
def getTaxonomyUrl (join : Str → Str) (taxNames : List Str) (kind name : Str) :
    Option Str :=
  match taxNames.find? (fun t => t == kind) with
  | some t => some (join (trimA (slugify (t ++ '/' :: name))))
  | none => none

/-! ## Site-wide render pass (main.rs lines 319-355) -/

/-- Lexicographic (byte-wise) `String` order of Rust, used by
`sort_by_key` on the date strings. -/
def strLe : Str → Str → Bool
  | [], _ => true
  | _ :: _, [] => false
  | a :: as, b :: bs => if a < b then true else if b < a then false else strLe as bs

def dateKey (p : Page) : Str := p.date.getD []

def pageLe (p q : Page) : Prop := strLe (dateKey p) (dateKey q) = true

instance : DecidableRel pageLe := fun p q => by
  unfold pageLe; infer_instance

/-- main.rs lines 326-333: keep dated pages, stable-sort ascending by
date, reverse.  Rust's `sort_by_key` is a stable sort, modelled by
`insertionSort` (any stable sort produces the same list). -/
def globalSorted (pages : List Page) : List Page :=
  (List.insertionSort pageLe (pages.filter fun p => p.date.isSome)).reverse

/-- main.rs lines 336-349: the page-list context chosen for one page. -/
def pageContext (pages : List Page) (page : Page) : List Page :=
  match page.taxonomy with
  | some (tax, term) =>
    (globalSorted pages).filter fun p =>
      (p.taxonomies.lookup tax).isSome &&
        ((p.taxonomies.lookup tax).getD []).contains term
  | none => globalSorted pages

/-- `render_pages_for_site` (main.rs lines 319-355), observing which
page list each page is rendered with (the external template call and
file write are the out-of-scope collaborators). -/
def renderPagesForSite (pages : List Page) : List (Page × List Page) :=
  pages.map fun page => (page, pageContext pages page)

/-! ## Markdown renderer event walk (markdown.rs lines 92-142) -/

inductive MdTag where
  | image (dest title : Str)
  | codeBlock (fenced : Option Str)
  | para
deriving DecidableEq, Repr

inductive MdEvent where
  | start (t : MdTag)
  | stop (t : MdTag)
  | text (s : Str)
  | html (s : Str)
deriving DecidableEq, Repr

/-- The `for event in Parser::new(input)` loop of `render_markdown`
(markdown.rs lines 103-136).  `urlOk` models `Url::from_str(..).is_ok()`
(absolute-URL test), `join` models `page.permalink.join(..)`, `hl`
models `highlighter.highlight(lang, code)` (`none` = `HighlightError`).
State: `inCode`, `lang`, `code` buffers; `acc` is the `events` vec. -/
def processEventsAux (urlOk : Str → Bool) (join : Str → Str)
    (hl : Str → Str → Option Str) :
    List MdEvent → Bool → Str → Str → List MdEvent → Option (List MdEvent)
  | [], _, _, _, acc => some acc
  | MdEvent.start (MdTag.image d t) :: rest, inCode, lang, code, acc =>
    let d2 := if urlOk d then d else join d
    processEventsAux urlOk join hl rest inCode lang code
      (acc ++ [MdEvent.start (MdTag.image d2 t)])
  | MdEvent.start (MdTag.codeBlock k) :: rest, _, _, code, acc =>
    processEventsAux urlOk join hl rest true (k.getD []) code acc
  | MdEvent.text t :: rest, inCode, lang, code, acc =>
    if inCode then processEventsAux urlOk join hl rest inCode lang (code ++ t) acc
    else processEventsAux urlOk join hl rest inCode lang code (acc ++ [MdEvent.text t])
  | MdEvent.stop (MdTag.codeBlock k) :: rest, inCode, lang, code, acc =>
    if inCode then
      match hl lang code with
      | none => none
      | some res =>
        processEventsAux urlOk join hl rest false lang []
          (acc ++ [MdEvent.html res])
    else
      processEventsAux urlOk join hl rest inCode lang code
        (acc ++ [MdEvent.stop (MdTag.codeBlock k)])
  | e :: rest, inCode, lang, code, acc =>
    processEventsAux urlOk join hl rest inCode lang code (acc ++ [e])

/-- The event walk starting from the initial state of markdown.rs
lines 97-101. -/
def processEvents (urlOk : Str → Bool) (join : Str → Str)
    (hl : Str → Str → Option Str) (events : List MdEvent) :
    Option (List MdEvent) :=
  processEventsAux urlOk join hl events false [] [] []

/-- The image destination URLs appearing in an event list, in order. -/
def imageDests : List MdEvent → List Str
  | [] => []
  | MdEvent.start (MdTag.image d _) :: rest => d :: imageDests rest
  | _ :: rest => imageDests rest

/-! ## Concrete collaborators used by witnesses and counterexamples -/

/-- A markdown/shortcode renderer that returns its input unchanged. -/
def idRender (s : Str) : Option Str := some s

/-- A renderer that always fails. -/
def noRender (_ : Str) : Option Str := none

/-- A toml deserializer accepting everything with empty frontmatter. -/
def anyDeser (_ : Str) : Option FrontMatterData := some ⟨none, none, none, none, none⟩

/-- A base-URL join that returns the path unchanged. -/
def idJoin (s : Str) : Str := s

/-- The C2 counterexample body: a non-`more` comment precedes a `more`
comment. -/
def c2Body : Str := ("<!-- x --><!-- more -->hi").toList

/-- URL test used by the C7 witness: treat URLs starting with `h` as
absolute. -/
def wUrlOk (s : Str) : Bool := s.head? == some 'h'

/-- Join used by the C7 witness. -/
def wJoin (s : Str) : Str := 'b' :: '/' :: s

/-- Highlighter used by the C7 witness. -/
def wHl (lang code : Str) : Option Str := some (lang ++ ':' :: code)

/-- The malformed span of spec scenario 3 (missing close parenthesis
before the closing braces), written out character by character. -/
def c5BadSpan : Str :=
  ['{', '{', ' ', 'b', 'a', 'd', '(', 'x', '=', '"', '1', '"', ' ', '}', '}']

/-! # Theorems -/

/-! ## Lemmas about `findSub` -/

theorem findSub_isPrefixOf {pat s : Str} {i : Nat} (h : findSub pat s = some i) :
    pat.isPrefixOf (s.drop i) = true := by
  induction s generalizing i with
  | nil =>
    unfold findSub at h
    split at h
    · next hpre =>
      cases h
      rw [List.drop_nil]
      exact hpre
    · cases h
  | cons c rest ih =>
    unfold findSub at h
    split at h
    · next hpre =>
      cases h
      rw [List.drop_zero]
      exact hpre
    · rcases Option.map_eq_some'.mp h with ⟨j, hj, hji⟩
      subst hji
      rw [List.drop_succ_cons]
      exact ih hj

theorem findSub_le_length {pat s : Str} {i : Nat} (h : findSub pat s = some i) :
    i ≤ s.length := by
  induction s generalizing i with
  | nil =>
    unfold findSub at h
    split at h
    · cases h; simp
    · cases h
  | cons c rest ih =>
    unfold findSub at h
    split at h
    · cases h; simp
    · rcases Option.map_eq_some'.mp h with ⟨j, hj, hji⟩
      subst hji
      have := ih hj
      simp only [List.length_cons]
      omega

theorem findSub_bound {pat s : Str} {i : Nat} (h : findSub pat s = some i) :
    i + pat.length ≤ s.length := by
  have hp := findSub_isPrefixOf h
  have hlen : pat.length ≤ (s.drop i).length :=
    (List.isPrefixOf_iff_prefix.mp hp).length_le
  have hi := findSub_le_length h
  rw [List.length_drop] at hlen
  omega

/-! ## The recorded ranges form a chain -/

theorem scanF_chain (input : Str) :
    ∀ fuel last rs, last ≤ input.length →
      scanRangesF input fuel last = some rs → Chain input.length last rs := by
  intro fuel
  induction fuel with
  | zero => intro last rs _ h; simp [scanRangesF] at h
  | succ fuel ih =>
    intro last rs hle h
    unfold scanRangesF at h
    split at h
    · -- no further `{{`: trailing markdown range or nothing
      split at h
      · next hlt =>
        cases h
        exact Chain.cons (ContentRange.markdown last input.length) [] last rfl
          (by simp only [ContentRange.lo, ContentRange.hi]; omega)
          (by simp [ContentRange.hi]) Chain.nil
      · next hlt =>
        cases h
        have heq : last = input.length := by omega
        subst heq
        exact Chain.nil
    · next s hopen =>
      split at h
      · cases h
      · next e hclose =>
        split at h
        · cases h
        · next rest hrec =>
          have hb := findSub_bound hclose
          rw [List.length_drop] at hb
          have hb2 : last + s + e + 2 ≤ input.length := by
            simp only [mdCloseTok, List.length_cons, List.length_nil] at hb
            omega
          have hchain := ih (last + s + e + 2) rest (by omega) hrec
          split at h
          · cases h
            exact Chain.cons (ContentRange.markdown last (last + s)) _ last rfl
              (by simp only [ContentRange.lo, ContentRange.hi]; omega)
              (by simp only [ContentRange.hi]; omega)
              (Chain.cons (ContentRange.shortCode (last + s) (last + s + e + 2)) _ _
                rfl (by simp only [ContentRange.lo, ContentRange.hi]; omega)
                (by simp only [ContentRange.hi]; omega) hchain)
          · next hs =>
            cases h
            have hs0 : s = 0 := by omega
            subst hs0
            exact Chain.cons (ContentRange.shortCode (last + 0) (last + 0 + e + 2)) _ _
              (by simp [ContentRange.lo])
              (by simp only [ContentRange.lo, ContentRange.hi]; omega)
              (by simp only [ContentRange.hi]; omega) hchain

/-! ## Reverse in-place substitution equals forward concatenation -/

theorem extract_take_append (s P : Str) (a b : Nat) (h1 : a ≤ b) (h2 : b ≤ s.length) :
    extract (s.take b ++ P) a b = extract s a b := by
  unfold extract
  have hlen : (s.take b).length = b := List.length_take_of_le h2
  have hdlen : ((s.take b).drop a).length = b - a := by
    rw [List.length_drop, hlen]
  rw [List.drop_append_of_le_length (by omega), List.take_left' hdlen,
    List.take_drop]
  have hab : a + (b - a) = b := by omega
  rw [hab]

theorem replaceRange_take_append (s P v : Str) (a b : Nat)
    (h1 : a ≤ b) (h2 : b ≤ s.length) :
    replaceRange (s.take b ++ P) a b v = s.take a ++ v ++ P := by
  unfold replaceRange
  have hlen : (s.take b).length = b := List.length_take_of_le h2
  rw [List.take_append_of_le_length (by omega), List.take_take,
    Nat.min_eq_left h1, List.drop_append_of_le_length (by omega),
    List.drop_of_length_le (by omega)]
  simp

theorem renderRange_take_append (rm rs : Str → Option Str) (s P : Str)
    (r : ContentRange) (h1 : r.lo ≤ r.hi) (h2 : r.hi ≤ s.length) :
    renderRange rm rs (s.take r.hi ++ P) r =
      (renderOne rm rs s r).map (fun v => s.take r.lo ++ v ++ P) := by
  cases r with
  | markdown a b =>
    simp only [ContentRange.lo, ContentRange.hi] at h1 h2 ⊢
    simp only [renderRange, renderOne, extract_take_append s P a b h1 h2]
    cases rm (extract s a b) with
    | none => rfl
    | some v => simp [replaceRange_take_append s P v a b h1 h2]
  | shortCode a b =>
    simp only [ContentRange.lo, ContentRange.hi] at h1 h2 ⊢
    simp only [renderRange, renderOne, extract_take_append s P a b h1 h2]
    cases rs (extract s a b) with
    | none => rfl
    | some v => simp [replaceRange_take_append s P v a b h1 h2]

theorem applySubsts_append (rm rs : Str → Option Str) (cur : Str)
    (l1 l2 : List ContentRange) :
    applySubsts rm rs cur (l1 ++ l2) =
      match applySubsts rm rs cur l1 with
      | none => none
      | some m => applySubsts rm rs m l2 := by
  induction l1 generalizing cur with
  | nil => simp [applySubsts]
  | cons r rest ih =>
    simp only [List.cons_append, applySubsts]
    cases renderRange rm rs cur r with
    | none => rfl
    | some nxt => simpa using ih nxt

theorem applyRev_renderForward (rm rs : Str → Option Str) (s : Str) :
    ∀ (ranges : List ContentRange) (a : Nat), Chain s.length a ranges →
      applySubsts rm rs s ranges.reverse =
        (renderForward rm rs s ranges).map (fun parts => s.take a ++ parts) := by
  intro ranges
  induction ranges with
  | nil =>
    intro a h
    cases h
    simp [applySubsts, renderForward]
  | cons r rest ih =>
    intro a h
    cases h with
    | cons _ _ _ hlo hle hhi hrest =>
      have hfix : r.lo ≤ r.hi := by rw [hlo]; exact hle
      rw [List.reverse_cons, applySubsts_append, ih r.hi hrest]
      cases hfwd : renderForward rm rs s rest with
      | none =>
        simp only [Option.map_none']
        show none = (renderForward rm rs s (r :: rest)).map _
        unfold renderForward
        rw [hfwd]
        cases renderOne rm rs s r <;> rfl
      | some P =>
        simp only [Option.map_some']
        show applySubsts rm rs (s.take r.hi ++ P) [r] =
          (renderForward rm rs s (r :: rest)).map (fun parts => s.take a ++ parts)
        unfold renderForward
        rw [hfwd]
        unfold applySubsts
        rw [renderRange_take_append rm rs s P r hfix hhi]
        cases renderOne rm rs s r with
        | none => rfl
        | some v =>
          simp only [Option.map_some']
          show some (s.take r.lo ++ v ++ P) = some (s.take a ++ (v ++ P))
          rw [hlo, List.append_assoc]

/-- C1: for every body string (and hence in particular whenever every
per-range render succeeds), the content splicer's output — ranges
recorded in forward order and rewritten in place in reverse order — is
exactly the forward concatenation, in original input order, of the
render of each recorded range; no range is reordered relative to the
surrounding markdown.  The two computations agree as `Option` values,
failing in exactly the same cases. -/
theorem renderContent_eq_forward (input : Str) (rm rs : Str → Option Str) :
    renderContent input rm rs = renderContentFwd input rm rs := by
  unfold renderContent renderContentFwd
  cases hscan : scanRanges input with
  | none => rfl
  | some ranges =>
    have hchain : Chain input.length 0 ranges :=
      scanF_chain input (input.length + 1) 0 ranges (Nat.zero_le _) hscan
    show applySubsts rm rs input ranges.reverse = renderForward rm rs input ranges
    rw [applyRev_renderForward rm rs input ranges 0 hchain]
    cases renderForward rm rs input ranges <;> simp

/-- C9: a body containing no occurrence of the two-character open
marker `{{` is spliced to exactly the output of the markdown renderer
alone on the whole body (the hypothesis `rm [] = some []` records that
the external markdown engine renders the empty span to the empty
string, which the real `pulldown_cmark` does). -/
theorem renderContent_no_shortcode (input : Str) (rm rs : Str → Option Str)
    (hnone : findSub mdOpenTok input = none) (hemp : rm [] = some []) :
    renderContent input rm rs = rm input := by
  unfold renderContent scanRanges
  rw [show scanRangesF input (input.length + 1) 0 =
      (match findSub mdOpenTok (input.drop 0) with
       | none =>
         if 0 < input.length then some [ContentRange.markdown 0 input.length]
         else some []
       | some s =>
         match findSub mdCloseTok (input.drop (0 + s)) with
         | none => none
         | some e =>
           match scanRangesF input input.length (0 + s + e + 2) with
           | none => none
           | some rest =>
             if 0 < s then
               some (ContentRange.markdown 0 (0 + s)
                 :: ContentRange.shortCode (0 + s) (0 + s + e + 2) :: rest)
             else
               some (ContentRange.shortCode (0 + s) (0 + s + e + 2) :: rest))
    from rfl]
  rw [List.drop_zero, hnone]
  by_cases h0 : 0 < input.length
  · simp only [h0, if_true]
    show applySubsts rm rs input [ContentRange.markdown 0 input.length] = rm input
    simp only [applySubsts, renderRange, extract, List.drop_zero, Nat.sub_zero,
      List.take_length]
    cases hr : rm input with
    | none => rfl
    | some v =>
      simp only [Option.map_some', replaceRange, List.take_zero, List.drop_length]
      simp [applySubsts]
  · have : input = [] := List.length_eq_zero.mp (by omega)
    subst this
    simp only [if_neg h0]
    show applySubsts rm rs [] [] = rm []
    rw [hemp]
    rfl

/-- Witness for C9 at the concrete body `a` with the identity markdown
renderer. -/
theorem renderContent_no_shortcode_witness :
    findSub mdOpenTok ['a'] = none ∧ idRender ([] : Str) = some [] ∧
      renderContent ['a'] idRender noRender = idRender ['a'] :=
  ⟨by decide, rfl, renderContent_no_shortcode ['a'] idRender noRender (by decide) rfl⟩

/-- C3: the frontmatter extractor's failure behaviour.  The claim says
a missing delimiter yields a returned `MalformedInput` error and a
missing second delimiter a returned `UnterminatedBlock` error, "never a
crash"; but frontmatter.rs lines 9 and 17-19 use `.expect(..)`, which
panics (aborts the process) in exactly those two situations — only the
"delimiter present but not at position 0" case returns an error value.
This theorem evaluates the embedded `parse` on the three inputs. -/
theorem fmParse_error_paths :
    fmParse ("hello").toList = FmResult.panicked ("missing frontmatter").toList ∧
    fmParse ("+++ abc").toList = FmResult.panicked ("unterminated frontmatter").toList ∧
    fmParse ("x+++y+++z").toList = FmResult.errNotAtStart := by
  refine ⟨?_, ?_, ?_⟩ <;> decide

/-! ## C2: the summary cut marker -/

/-- C2 counterexample: the body `<!-- x --><!-- more -->hi` contains an
HTML comment whose trimmed content is `more`, yet the constructed
summary is absent (`some none` = file processed successfully, no
summary), because main.rs lines 263-277 inspect only the FIRST `<!--`
of the body. -/
theorem computeSummary_not_anywhere :
    existsMoreComment c2Body = true ∧
      computeSummary idRender idRender c2Body = some none := by
  refine ⟨?_, ?_⟩ <;> decide

/-- C2 (amended): the summary is present iff the FIRST HTML comment of
the body (its first `<!--`, paired with the next `-->`) has trimmed
content case-insensitively equal to `more`, in which case the summary
is the full content-pipeline render of the text strictly before that
first `<!--`; and whenever no `more`-comment exists anywhere in the
body the summary is absent. -/
theorem computeSummary_first_comment (rm rs : Str → Option Str) (body : Str) :
    (computeSummary rm rs body =
      match firstMoreStart body with
      | some s => (renderContent (body.take s) rm rs).map some
      | none => some none) ∧
    (existsMoreComment body = true ∨ computeSummary rm rs body = some none) := by
  have hchar : computeSummary rm rs body =
      match firstMoreStart body with
      | some s => (renderContent (body.take s) rm rs).map some
      | none => some none := by
    unfold computeSummary firstMoreStart
    split
    · rfl
    · next s heq =>
      split
      · rfl
      · next e heq2 =>
        by_cases hcond : eqIgnoreAsciiCase (trimA (extract body (s + 4) (s + 4 + e)))
            ("more").toList = true
        · rw [if_pos hcond, if_pos hcond]
        · rw [if_neg hcond, if_neg hcond]
  refine ⟨hchar, ?_⟩
  cases hfm : firstMoreStart body with
  | none =>
    right
    rw [hchar, hfm]
  | some s =>
    left
    unfold firstMoreStart at hfm
    split at hfm
    · cases hfm
    · next s' heq =>
      split at hfm
      · cases hfm
      · next e heq2 =>
        split at hfm
        · next hcond =>
          cases hfm
          have hbound := findSub_bound heq
          have hlt : s < body.length := by
            simp only [cmtOpenTok, List.length_cons, List.length_nil] at hbound
            omega
          unfold existsMoreComment
          rw [List.any_eq_true]
          refine ⟨s, List.mem_range.mpr hlt, ?_⟩
          rw [Bool.and_eq_true]
          refine ⟨findSub_isPrefixOf heq, ?_⟩
          rw [heq2]
          exact hcond
        · cases hfm

/-! ## C4: the `_` filename convention -/

/-- C4 counterexample: the file `_bad.md` with contents `hello` is NOT
skipped: `process_templated_files` reads it and runs frontmatter
extraction on it before the `_` check (main.rs lines 225-233), so the
run aborts with the missing-frontmatter panic instead of skipping the
file. -/
theorem underscore_not_skipped :
    processFile anyDeser idRender idRender idJoin [("_bad.md").toList]
        ("hello").toList =
      FileOutcome.panicked ("missing frontmatter").toList := by
  decide

/-- C4 (amended): a non-binary-asset file whose filename begins with `_`
is skipped — no page is inserted and no rendering is performed — but
only AFTER frontmatter extraction (and its toml deserialization)
succeeds on its contents; a `_` file with malformed frontmatter still
aborts the run. -/
theorem underscore_skipped_after_frontmatter
    (deser : Str → Option FrontMatterData) (rm rs : Str → Option Str)
    (joinBase : Str → Str) (rel : List Str) (contents fmText body : Str)
    (fm : FrontMatterData)
    (hstatic : ((extOf (rel.getLast?.getD [])).map
      (fun e => staticExts.contains e)).getD false = false)
    (hfm : fmParse contents = FmResult.ok fmText body)
    (hdes : deser fmText = some fm)
    (hund : (rel.getLast?.getD []).head? = some '_') :
    processFile deser rm rs joinBase rel contents = FileOutcome.skipped := by
  unfold processFile
  simp [hfm, hdes, hund]
  simpa using hstatic

/-- Witness for C4's amended claim at the file `_p.md` with wellformed
empty frontmatter. -/
theorem underscore_skipped_witness :
    fmParse ("+++\n+++\nb").toList = FmResult.ok [] ("b").toList ∧
      processFile anyDeser idRender idRender idJoin [("_p.md").toList]
        ("+++\n+++\nb").toList = FileOutcome.skipped :=
  ⟨by decide,
    underscore_skipped_after_frontmatter anyDeser idRender idRender idJoin
      [("_p.md").toList] ("+++\n+++\nb").toList [] ("b").toList
      ⟨none, none, none, none, none⟩ (by decide) (by decide) rfl (by decide)⟩

/-! ## C7: image URL rewriting -/

theorem imageDests_append (l1 l2 : List MdEvent) :
    imageDests (l1 ++ l2) = imageDests l1 ++ imageDests l2 := by
  induction l1 with
  | nil => rfl
  | cons e rest ih =>
    cases e with
    | start t =>
      cases t with
      | image d ti => simp [imageDests, ih]
      | codeBlock k => simp [imageDests, ih]
      | para => simp [imageDests, ih]
    | stop t => simp [imageDests, ih]
    | text s => simp [imageDests, ih]
    | html s => simp [imageDests, ih]

theorem processEventsAux_imageDests (urlOk : Str → Bool) (join : Str → Str)
    (hl : Str → Str → Option Str) :
    ∀ (evs : List MdEvent) (inCode : Bool) (lang code : Str)
      (acc out : List MdEvent),
      processEventsAux urlOk join hl evs inCode lang code acc = some out →
      imageDests out = imageDests acc ++
        (imageDests evs).map (fun d => if urlOk d then d else join d) := by
  intro evs
  induction evs with
  | nil =>
    intro inCode lang code acc out h
    unfold processEventsAux at h
    cases h
    simp [imageDests]
  | cons e rest ih =>
    intro inCode lang code acc out h
    cases e with
    | start t =>
      cases t with
      | image d ti =>
        unfold processEventsAux at h
        rw [ih _ _ _ _ _ h, imageDests_append]
        simp [imageDests]
      | codeBlock k =>
        unfold processEventsAux at h
        rw [ih _ _ _ _ _ h]
        simp [imageDests]
      | para =>
        unfold processEventsAux at h
        rw [ih _ _ _ _ _ h, imageDests_append]
        simp [imageDests]
    | text s =>
      unfold processEventsAux at h
      cases inCode with
      | true =>
        rw [if_pos rfl] at h
        rw [ih _ _ _ _ _ h]
        simp [imageDests]
      | false =>
        rw [if_neg (by simp)] at h
        rw [ih _ _ _ _ _ h, imageDests_append]
        simp [imageDests]
    | stop t =>
      cases t with
      | codeBlock k =>
        unfold processEventsAux at h
        cases inCode with
        | true =>
          rw [if_pos rfl] at h
          cases hhl : hl lang code with
          | none => rw [hhl] at h; cases h
          | some res =>
            rw [hhl] at h
            rw [ih _ _ _ _ _ h, imageDests_append]
            simp [imageDests]
        | false =>
          rw [if_neg (by simp)] at h
          rw [ih _ _ _ _ _ h, imageDests_append]
          simp [imageDests]
      | image d ti =>
        unfold processEventsAux at h
        rw [ih _ _ _ _ _ h, imageDests_append]
        simp [imageDests]
      | para =>
        unfold processEventsAux at h
        rw [ih _ _ _ _ _ h, imageDests_append]
        simp [imageDests]
    | html s =>
      unfold processEventsAux at h
      rw [ih _ _ _ _ _ h, imageDests_append]
      simp [imageDests]

/-- C7: for every image destination URL encountered while walking a
markdown span's event stream (whenever the walk completes), an already
absolute URL (`urlOk`) is emitted unchanged and any other URL is
replaced by its resolution (`join`) against the page permalink. -/
theorem processEvents_imageDests (urlOk : Str → Bool) (join : Str → Str)
    (hl : Str → Str → Option Str) (events out : List MdEvent)
    (h : processEvents urlOk join hl events = some out) :
    imageDests out =
      (imageDests events).map (fun d => if urlOk d then d else join d) := by
  have := processEventsAux_imageDests urlOk join hl events false [] [] [] out h
  simpa [imageDests] using this

/-- Witness for C7: one relative and one absolute image URL. -/
theorem processEvents_imageDests_witness :
    processEvents wUrlOk wJoin wHl
        [MdEvent.start (MdTag.image ("a.png").toList []),
         MdEvent.start (MdTag.image ("http://x").toList [])] =
      some [MdEvent.start (MdTag.image ("b/a.png").toList []),
        MdEvent.start (MdTag.image ("http://x").toList [])] ∧
    imageDests [MdEvent.start (MdTag.image ("b/a.png").toList []),
        MdEvent.start (MdTag.image ("http://x").toList [])] =
      (imageDests [MdEvent.start (MdTag.image ("a.png").toList []),
        MdEvent.start (MdTag.image ("http://x").toList [])]).map
        (fun d => if wUrlOk d then d else wJoin d) :=
  ⟨by decide,
    processEvents_imageDests wUrlOk wJoin wHl
      [MdEvent.start (MdTag.image ("a.png").toList []),
       MdEvent.start (MdTag.image ("http://x").toList [])]
      [MdEvent.start (MdTag.image ("b/a.png").toList []),
       MdEvent.start (MdTag.image ("http://x").toList [])] (by decide)⟩

/-! ## C6: taxonomy term pages -/

theorem termPage_injective (joinBase : Str → Str) (tax : Str) :
    Function.Injective (termPage joinBase tax) := fun t1 t2 h => by
  have := congrArg Page.title h
  simpa [termPage] using this

/-- C6: for every configured taxonomy and collection of pages, the
taxonomy builder synthesizes exactly one term page per distinct term
string (the synthesized set depends only on the SET of terms, hence is
independent of page iteration order and duplicate assignments), and
each synthesized page has template `<taxonomy>/single.html`, title the
term text, the (taxonomy, term) pair set, and empty content and
description. -/
theorem synthTermPages_spec (joinBase : Str → Str) (ps qs : List Page) (tax : Str) :
    (synthTermPages joinBase ps tax = synthTermPages joinBase qs tax ↔
      (termList ps tax).toFinset = (termList qs tax).toFinset) ∧
    (∀ p : Page, p ∈ synthTermPages joinBase ps tax ↔
      ∃ t, t ∈ termList ps tax ∧ p = termPage joinBase tax t) ∧
    ((synthTermPages joinBase ps tax).card = (termList ps tax).toFinset.card) ∧
    (∀ t : Str,
      (termPage joinBase tax t).templateName = tax ++ ("/single.html").toList ∧
      (termPage joinBase tax t).title = t ∧
      (termPage joinBase tax t).taxonomy = some (tax, t) ∧
      (termPage joinBase tax t).content = [] ∧
      (termPage joinBase tax t).description = []) := by
  have hinj := termPage_injective joinBase tax
  refine ⟨?_, ?_, ?_, ?_⟩
  · constructor
    · intro h
      ext t
      constructor
      · intro ht
        have hmem : termPage joinBase tax t ∈ synthTermPages joinBase ps tax :=
          Finset.mem_image_of_mem _ ht
        rw [h] at hmem
        rcases Finset.mem_image.mp hmem with ⟨t2, ht2, heq⟩
        exact hinj heq ▸ ht2
      · intro ht
        have hmem : termPage joinBase tax t ∈ synthTermPages joinBase qs tax :=
          Finset.mem_image_of_mem _ ht
        rw [← h] at hmem
        rcases Finset.mem_image.mp hmem with ⟨t2, ht2, heq⟩
        exact hinj heq ▸ ht2
    · intro h
      unfold synthTermPages
      rw [h]
  · intro p
    unfold synthTermPages
    rw [Finset.mem_image]
    constructor
    · rintro ⟨t, ht, rfl⟩
      exact ⟨t, List.mem_toFinset.mp ht, rfl⟩
    · rintro ⟨t, ht, rfl⟩
      exact ⟨t, List.mem_toFinset.mpr ht, rfl⟩
  · exact Finset.card_image_of_injective _ hinj
  · intro t
    exact ⟨rfl, rfl, rfl, rfl, rfl⟩

/-! ## C10: slugification -/

theorem slugify_eq_map (s : Str) :
    slugify s = s.map (fun c => if c = ' ' then '-' else c) := by
  induction s with
  | nil => rfl
  | cons c cs ih => simp [slugify, ih]

theorem space_not_mem_slugify (s : Str) : ' ' ∉ slugify s := by
  rw [slugify_eq_map]
  intro hmem
  rcases List.mem_map.mp hmem with ⟨c, hc, heq⟩
  by_cases h : c = ' '
  · rw [if_pos h] at heq
    exact absurd heq (by decide)
  · rw [if_neg h] at heq
    exact h heq

theorem slugify_ne_iff (s : Str) : slugify s ≠ s ↔ ' ' ∈ s := by
  constructor
  · intro hne
    by_contra hmem
    apply hne
    rw [slugify_eq_map]
    have hpt : ∀ c ∈ s, (fun c => if c = ' ' then '-' else c) c = id c := by
      intro c hc
      have : c ≠ ' ' := fun h => hmem (h ▸ hc)
      simp [this]
    rw [List.map_congr_left hpt, List.map_id]
  · intro hmem heq
    have := space_not_mem_slugify s
    rw [heq] at this
    exact this hmem

theorem mem_of_mem_trimA {c : Char} {s : Str} (h : c ∈ trimA s) : c ∈ s := by
  unfold trimA trimStartA trimEndA at h
  have h1 := (List.dropWhile_sublist isWsChar).subset h
  rw [List.mem_reverse] at h1
  have h2 := (List.dropWhile_sublist isWsChar).subset h1
  rwa [List.mem_reverse] at h2

/-- C10: every output path (content pages and synthesized term pages
alike) is the slugification of the literal path-derivation rule — each
space replaced by a hyphen, so a path with spaces differs from the
literal rule exactly at those spaces — and the taxonomy-URL lookup
joins a slugified, space-free path. -/
theorem slugify_everywhere (rel : List Str) (tmpl : Option Str) (s : Str)
    (joinBase : Str → Str) (taxNames : List Str) (kind nm : Str) :
    (outputPath rel tmpl = slugify (outputPathRaw rel tmpl)) ∧
    (slugify s = s.map (fun c => if c = ' ' then '-' else c)) ∧
    (' ' ∉ outputPath rel tmpl) ∧
    (outputPath rel tmpl ≠ outputPathRaw rel tmpl ↔ ' ' ∈ outputPathRaw rel tmpl) ∧
    (∀ t : Str, (termPage joinBase kind t).name =
      outputPath [kind, t] (some (kind ++ ("/single.html").toList))) ∧
    (getTaxonomyUrl joinBase taxNames kind nm =
      if kind ∈ taxNames then some (joinBase (trimA (slugify (kind ++ '/' :: nm))))
      else none) ∧
    (' ' ∉ trimA (slugify (kind ++ '/' :: nm))) := by
  refine ⟨rfl, slugify_eq_map s, space_not_mem_slugify _, slugify_ne_iff _,
    fun t => rfl, ?_, ?_⟩
  · unfold getTaxonomyUrl
    cases hf : taxNames.find? (fun t => t == kind) with
    | none =>
      rw [if_neg]
      intro hmem
      have := List.find?_eq_none.mp hf kind hmem
      simp at this
    | some t =>
      have ht : t = kind := by
        have := List.find?_some hf
        simpa using this
      subst ht
      rw [if_pos (List.mem_of_find?_eq_some hf)]
  · intro hmem
    exact space_not_mem_slugify _ (mem_of_mem_trimA hmem)

/-! ## C8: the site-wide render pass -/

theorem strLe_total (a b : Str) : strLe a b = true ∨ strLe b a = true := by
  induction a generalizing b with
  | nil => left; rfl
  | cons x xs ih =>
    cases b with
    | nil => right; rfl
    | cons y ys =>
      rcases lt_trichotomy x y with h | h | h
      · left
        unfold strLe
        rw [if_pos h]
      · subst h
        unfold strLe
        simp only [if_neg (lt_irrefl x)]
        exact ih ys
      · right
        unfold strLe
        rw [if_pos h]

theorem strLe_trans (a b c : Str) (h1 : strLe a b = true) (h2 : strLe b c = true) :
    strLe a c = true := by
  induction a generalizing b c with
  | nil => rfl
  | cons x xs ih =>
    cases b with
    | nil => simp [strLe] at h1
    | cons y ys =>
      cases c with
      | nil => simp [strLe] at h2
      | cons z zs =>
        unfold strLe at h1 h2 ⊢
        rcases lt_trichotomy x y with hxy | hxy | hxy
        · rcases lt_trichotomy y z with hyz | hyz | hyz
          · rw [if_pos (lt_trans hxy hyz)]
          · subst hyz
            rw [if_pos hxy]
          · rw [if_neg (asymm hyz), if_pos hyz] at h2
            cases h2
        · subst hxy
          rw [if_neg (lt_irrefl x), if_neg (lt_irrefl x)] at h1
          rcases lt_trichotomy x z with hxz | hxz | hxz
          · rw [if_pos hxz]
          · subst hxz
            rw [if_neg (lt_irrefl x), if_neg (lt_irrefl x)] at h2 ⊢
            exact ih ys zs h1 h2
          · rw [if_neg (asymm hxz), if_pos hxz] at h2
            cases h2
        · rw [if_neg (asymm hxy), if_pos hxy] at h1
          cases h1

/-- C8: in the final render pass, the shared page list is exactly the
dated pages sorted by date descending (undated pages excluded); a page
carrying a (taxonomy, term) identity is rendered with that list
filtered to the pages whose taxonomy mapping contains the pair, and
every other page with the full sorted list. -/
theorem renderPagesForSite_spec (pages : List Page) :
    (renderPagesForSite pages = pages.map fun p => (p, pageContext pages p)) ∧
    (globalSorted pages).Perm (pages.filter fun p => p.date.isSome) ∧
    List.Sorted (fun p q : Page => strLe (dateKey q) (dateKey p) = true)
      (globalSorted pages) ∧
    (∀ p : Page, pageContext pages p =
      match p.taxonomy with
      | some (tax, term) =>
        (globalSorted pages).filter fun q =>
          (q.taxonomies.lookup tax).isSome &&
            ((q.taxonomies.lookup tax).getD []).contains term
      | none => globalSorted pages) := by
  refine ⟨rfl, ?_, ?_, fun p => rfl⟩
  · unfold globalSorted
    exact (List.reverse_perm _).trans (List.perm_insertionSort _ _)
  · unfold globalSorted
    haveI : IsTotal Page pageLe := ⟨fun p q => strLe_total _ _⟩
    haveI : IsTrans Page pageLe := ⟨fun p q r h1 h2 => strLe_trans _ _ _ h1 h2⟩
    have hs := List.sorted_insertionSort pageLe (pages.filter fun p => p.date.isSome)
    exact List.pairwise_reverse.mpr hs

/-! ## C5: the shortcode parser -/

theorem identChar_not_ws {c : Char} (h : isIdentChar c = true) : isWsChar c = false := by
  by_contra hw
  rw [Bool.not_eq_false] at hw
  simp only [isWsChar, Bool.or_eq_true, beq_iff_eq] at hw
  rcases hw with ((((h1 | h1) | h1) | h1) | h1) | h1 <;>
    (subst h1; exact absurd h (by decide))

theorem runSpacesAux_noop {p : Nat} {l : Str} (h : headNotWs l = true) :
    runSpacesAux p l = ⟨p, l⟩ := by
  cases l with
  | nil => rfl
  | cons c cs =>
    simp only [headNotWs, Bool.not_eq_true'] at h
    unfold runSpacesAux
    rw [if_neg (by simp [h])]

theorem runLit_ok {l r : Str} {p : Nat} (hnw : headNotWs r = true) :
    runLit l ⟨p, l ++ r⟩ = PRes.ok () ⟨p + l.length, r⟩ true := by
  unfold runLit
  have hpre : l.isPrefixOf (l ++ r) = true :=
    List.isPrefixOf_iff_prefix.mpr (List.prefix_append l r)
  rw [if_pos hpre, List.drop_left, runSpacesAux_noop hnw]

theorem takeWhile_all_append {pr : Char → Bool} {l X : Str}
    (h : l.all pr = true) (hX : X.takeWhile pr = []) :
    (l ++ X).takeWhile pr = l := by
  rw [List.takeWhile_append_of_pos (fun a ha => List.all_eq_true.mp h a ha), hX,
    List.append_nil]

theorem takeWhile_ident_nil {X : Str} (h : headNotIdent X = true) :
    X.takeWhile isIdentChar = [] := by
  cases X with
  | nil => rfl
  | cons c cs =>
    simp only [headNotIdent, Bool.not_eq_true'] at h
    rw [List.takeWhile_cons_of_neg (by simp [h])]

theorem runIdent_ok {n r : Str} {p : Nat}
    (hid : n.all isIdentChar = true) (hni : headNotIdent r = true)
    (hnw : headNotWs r = true) :
    runIdent ⟨p, n ++ r⟩ = PRes.ok n ⟨p + n.length, r⟩ (!n.isEmpty) := by
  have htw : (n ++ r).takeWhile isIdentChar = n :=
    takeWhile_all_append hid (takeWhile_ident_nil hni)
  unfold runIdent
  simp only [htw, List.drop_left, runSpacesAux_noop hnw, bne_self_eq_false,
    Bool.or_false]

theorem takeWhile_value {v r : Str} (h : v.all (fun c => c != '"') = true) :
    (v ++ '"' :: r).takeWhile (fun c => c != '"') = v := by
  rw [List.takeWhile_append_of_pos (fun a ha => List.all_eq_true.mp h a ha),
    List.takeWhile_cons_of_neg (by simp)]
  simp

theorem runStrLit_ok {v r : Str} {p : Nat}
    (hq : v.all (fun c => c != '"') = true) (hvw : headNotWs v = true)
    (hnw : headNotWs r = true) :
    runStrLit ⟨p, '"' :: v ++ '"' :: r⟩ =
      PRes.ok v ⟨p + v.length + 2, r⟩ true := by
  have hnw2 : headNotWs (v ++ '"' :: r) = true := by
    cases v with
    | nil => rfl
    | cons c cs => exact hvw
  have h1 : runLit ['"'] ⟨p, '"' :: v ++ '"' :: r⟩ =
      PRes.ok () ⟨p + 1, v ++ '"' :: r⟩ true := by
    simpa using runLit_ok (l := ['"']) (r := v ++ '"' :: r) (p := p) hnw2
  have htw := takeWhile_value (r := r) hq
  have h2 : runLit ['"'] ⟨p + 1 + v.length, '"' :: r⟩ =
      PRes.ok () ⟨p + 1 + v.length + 1, r⟩ true := by
    simpa using runLit_ok (l := ['"']) (r := r) (p := p + 1 + v.length) hnw
  unfold runStrLit
  simp only [h1, htw, List.drop_left, h2, runSpaces, runSpacesAux_noop hnw]
  have hpos : p + 1 + v.length + 1 = p + v.length + 2 := by omega
  rw [hpos]

theorem headNotWs_of_all_ident {l X : Str} (h : l.all isIdentChar = true)
    (hX : headNotWs X = true) : headNotWs (l ++ X) = true := by
  cases l with
  | nil => exact hX
  | cons c cs =>
    simp only [List.all_cons, Bool.and_eq_true] at h
    simp [headNotWs, identChar_not_ws h.1]

theorem argWf_parts {a : Argument} (h : argWf a = true) :
    a.name.all isIdentChar = true ∧ a.value.all (fun c => c != '"') = true ∧
      headNotWs a.value = true := by
  simp only [argWf, Bool.and_eq_true] at h
  exact ⟨h.1.1, h.1.2, h.2⟩

theorem headNotWs_argChars {a : Argument} (X : Str) (h : argWf a = true) :
    headNotWs (argChars a ++ X) = true := by
  have hn := (argWf_parts h).1
  have hsplit : argChars a ++ X = a.name ++ ('=' :: '"' :: (a.value ++ '"' :: X)) := by
    simp [argChars]
  rw [hsplit]
  exact headNotWs_of_all_ident hn rfl

theorem headNotWs_joinTail (as : List Argument) (tl : Str) :
    headNotWs (joinTail as ++ ')' :: tl) = true := by
  cases as <;> rfl

theorem joinTail_length_ge (as : List Argument) :
    as.length ≤ (joinTail as).length := by
  induction as with
  | nil => simp [joinTail]
  | cons a as ih =>
    simp only [joinTail, List.length_cons, List.length_append]
    omega

theorem runArg_ok {a : Argument} {r : Str} {p : Nat}
    (hwf : argWf a = true) (hnw : headNotWs r = true) :
    ∃ q, runArg ⟨p, argChars a ++ r⟩ = PRes.ok a ⟨q, r⟩ true := by
  obtain ⟨hname, hval, hvw⟩ := argWf_parts hwf
  have hsplit : argChars a ++ r = a.name ++ ('=' :: '"' :: (a.value ++ '"' :: r)) := by
    simp [argChars]
  rw [hsplit]
  unfold runArg
  have h1 : runIdent ⟨p, a.name ++ ('=' :: '"' :: (a.value ++ '"' :: r))⟩ =
      PRes.ok a.name ⟨p + a.name.length, '=' :: '"' :: (a.value ++ '"' :: r)⟩
        (!a.name.isEmpty) :=
    runIdent_ok hname rfl rfl
  have h2 : runLit ['='] ⟨p + a.name.length, '=' :: '"' :: (a.value ++ '"' :: r)⟩ =
      PRes.ok () ⟨p + a.name.length + 1, '"' :: (a.value ++ '"' :: r)⟩ true := by
    simpa using runLit_ok (l := ['='])
      (r := '"' :: (a.value ++ '"' :: r)) (p := p + a.name.length) rfl
  have h3 : runStrLit ⟨p + a.name.length + 1, '"' :: (a.value ++ '"' :: r)⟩ =
      PRes.ok a.value ⟨p + a.name.length + 1 + a.value.length + 2, r⟩ true := by
    simpa using runStrLit_ok (v := a.value) (r := r) hval hvw hnw
  simp only [h1, h2, h3]
  exact ⟨_, rfl⟩

theorem runArgsTail_ok :
    ∀ (args : List Argument) (fuel p : Nat) (tl : Str),
      (∀ a ∈ args, argWf a = true) → args.length < fuel →
      ∃ q c, runArgsTailF fuel ⟨p, joinTail args ++ ')' :: tl⟩ =
        PRes.ok args ⟨q, ')' :: tl⟩ c := by
  intro args
  induction args with
  | nil =>
    intro fuel p tl _ hfuel
    cases fuel with
    | zero => omega
    | succ f =>
      simp only [joinTail, List.nil_append]
      have hpre : List.isPrefixOf [','] (')' :: tl) = false := rfl
      unfold runArgsTailF runLit
      rw [if_neg (by simp [hpre])]
      exact ⟨p, true, rfl⟩
  | cons a as ih =>
    intro fuel p tl hwf hfuel
    cases fuel with
    | zero => omega
    | succ f =>
      have hsplit : joinTail (a :: as) ++ ')' :: tl =
          ',' :: (argChars a ++ (joinTail as ++ ')' :: tl)) := by
        simp [joinTail]
      have hcomma : runLit [','] ⟨p, ',' :: (argChars a ++ (joinTail as ++ ')' :: tl))⟩ =
          PRes.ok () ⟨p + 1, argChars a ++ (joinTail as ++ ')' :: tl)⟩ true := by
        simpa using runLit_ok (l := [','])
          (r := argChars a ++ (joinTail as ++ ')' :: tl)) (p := p)
          (headNotWs_argChars _ (hwf a (List.mem_cons_self a as)))
      obtain ⟨q1, harg⟩ := runArg_ok (a := a) (r := joinTail as ++ ')' :: tl)
        (p := p + 1) (hwf a (List.mem_cons_self a as)) (headNotWs_joinTail as tl)
      obtain ⟨q2, c2, hrec⟩ := ih f q1 tl
        (fun x hx => hwf x (List.mem_cons_of_mem a hx)) (by simp at hfuel; omega)
      rw [hsplit]
      unfold runArgsTailF
      simp only [hcomma, harg, hrec]
      exact ⟨q2, c2, rfl⟩

theorem runArgList_ok (args : List Argument) (p : Nat) (tl : Str)
    (hwf : ∀ a ∈ args, argWf a = true) :
    ∃ q c, runArgList ⟨p, argsChars args ++ ')' :: tl⟩ =
      PRes.ok args ⟨q, ')' :: tl⟩ c := by
  cases args with
  | nil =>
    have htw : (')' :: tl).takeWhile isIdentChar = [] := takeWhile_ident_nil rfl
    have hpre : List.isPrefixOf ['='] (')' :: tl) = false := rfl
    have hident : runIdent ⟨p, ')' :: tl⟩ = PRes.ok [] ⟨p, ')' :: tl⟩ false := by
      unfold runIdent
      simp only [htw, List.length_nil, List.drop_zero, Nat.add_zero,
        runSpacesAux_noop (l := ')' :: tl) rfl]
      simp
    have hlitEq : runLit ['='] ⟨p, ')' :: tl⟩ = PRes.err p false := by
      unfold runLit
      rw [if_neg (by simp [hpre])]
    have h1 : runArg ⟨p, ')' :: tl⟩ = PRes.err p false := by
      unfold runArg
      simp only [hident, hlitEq]
      rfl
    unfold runArgList
    simp only [argsChars, List.nil_append, h1]
    exact ⟨p, false, rfl⟩
  | cons a as =>
    have hsplit : argsChars (a :: as) ++ ')' :: tl =
        argChars a ++ (joinTail as ++ ')' :: tl) := by
      simp [argsChars]
    obtain ⟨q1, harg⟩ := runArg_ok (a := a) (r := joinTail as ++ ')' :: tl)
      (p := p) (hwf a (List.mem_cons_self a as)) (headNotWs_joinTail as tl)
    obtain ⟨q2, c2, htail⟩ := runArgsTail_ok as
      ((joinTail as ++ ')' :: tl).length + 1) q1 tl
      (fun x hx => hwf x (List.mem_cons_of_mem a hx))
      (by have := joinTail_length_ge as; simp only [List.length_append]; omega)
    rw [hsplit]
    unfold runArgList
    simp only [harg, htail]
    exact ⟨q2, c2, rfl⟩

theorem headNotWs_argsChars (args : List Argument) (tl : Str)
    (hwf : ∀ a ∈ args, argWf a = true) :
    headNotWs (argsChars args ++ ')' :: tl) = true := by
  cases args with
  | nil => rfl
  | cons a as =>
    have hsplit : argsChars (a :: as) ++ ')' :: tl =
        argChars a ++ (joinTail as ++ ')' :: tl) := by
      simp [argsChars]
    rw [hsplit]
    exact headNotWs_argChars _ (hwf a (List.mem_cons_self a as))

theorem runArgs_ok (args : List Argument) (p : Nat) (tl : Str)
    (hwf : ∀ a ∈ args, argWf a = true) (hnw : headNotWs tl = true) :
    ∃ q, runArgs ⟨p, '(' :: (argsChars args ++ ')' :: tl)⟩ =
      PRes.ok args ⟨q, tl⟩ true := by
  have h1 : runLit ['('] ⟨p, '(' :: (argsChars args ++ ')' :: tl)⟩ =
      PRes.ok () ⟨p + 1, argsChars args ++ ')' :: tl⟩ true := by
    simpa using runLit_ok (l := ['(']) (r := argsChars args ++ ')' :: tl)
      (p := p) (headNotWs_argsChars args tl hwf)
  obtain ⟨q1, c1, hlist⟩ := runArgList_ok args (p + 1) tl hwf
  have h2 : runLit [')'] ⟨q1, ')' :: tl⟩ = PRes.ok () ⟨q1 + 1, tl⟩ true := by
    simpa using runLit_ok (l := [')']) (r := tl) (p := q1) hnw
  unfold runArgs
  simp only [h1, hlist, h2]
  exact ⟨q1 + 1, rfl⟩

theorem runShortCode_ok (name : Str) (args : List Argument)
    (hname : name.all isIdentChar = true)
    (hwf : ∀ a ∈ args, argWf a = true) :
    ∃ q, runShortCode ⟨0, buildShortCode name args⟩ =
      PRes.ok ⟨name, args⟩ ⟨q, []⟩ true := by
  have hnwName : headNotWs (name ++ '(' :: (argsChars args ++ [')', '}', '}'])) = true :=
    headNotWs_of_all_ident hname rfl
  have h1 : runLit ['{', '{']
      ⟨0, '{' :: '{' :: (name ++ '(' :: (argsChars args ++ [')', '}', '}']))⟩ =
      PRes.ok () ⟨2, name ++ '(' :: (argsChars args ++ [')', '}', '}'])⟩ true := by
    simpa using runLit_ok (l := ['{', '{'])
      (r := name ++ '(' :: (argsChars args ++ [')', '}', '}'])) (p := 0) hnwName
  have h2 : runIdent ⟨2, name ++ '(' :: (argsChars args ++ [')', '}', '}'])⟩ =
      PRes.ok name ⟨2 + name.length, '(' :: (argsChars args ++ [')', '}', '}'])⟩
        (!name.isEmpty) :=
    runIdent_ok hname rfl rfl
  obtain ⟨q1, hargs⟩ := runArgs_ok args (2 + name.length) ['}', '}'] hwf rfl
  have h4 : runLit ['}', '}'] ⟨q1, ['}', '}']⟩ = PRes.ok () ⟨q1 + 2, []⟩ true := by
    simpa using runLit_ok (l := ['}', '}']) (r := []) (p := q1) rfl
  have hbuild : buildShortCode name args =
      '{' :: '{' :: (name ++ '(' :: (argsChars args ++ [')', '}', '}'])) := by
    simp [buildShortCode]
  rw [hbuild]
  unfold runShortCode
  simp only [h1, h2, hargs, h4]
  exact ⟨q1 + 2, rfl⟩

/-- C5 counterexample: the parser ACCEPTS the span `{{()}}`, whose
shortcode identifier is empty — combine's `take_while` matches ZERO or
more characters — and returns a shortcode named `""`; the claim states
that a span with an empty identifier is rejected. -/
theorem parseShortcode_empty_ident :
    parseShortcode ("{{()}}").toList = Except.ok ⟨[], []⟩ := by rfl

/-- C5 (amended): the parser accepts the shortcode grammar with
identifiers of ZERO or more alphanumeric/underscore characters (an
empty identifier yields an empty name) and quote-free string values
(leading whitespace of a value is skipped): every canonically rendered
span `{{name(a1="v1",…)}}` parses to exactly that shortcode; and a
structurally mismatching span such as `{{ bad(x="1" }}` (missing close
parenthesis) fails with an error carrying the byte offset of the
failure (13, the offset at which `)` was expected). -/
theorem parseShortcode_spec (name : Str) (args : List Argument)
    (hname : name.all isIdentChar = true)
    (hwf : ∀ a ∈ args, argWf a = true) :
    parseShortcode (buildShortCode name args) = Except.ok ⟨name, args⟩ ∧
    parseShortcode c5BadSpan = Except.error 13 := by
  constructor
  · unfold parseShortcode
    obtain ⟨q, h⟩ := runShortCode_ok name args hname hwf
    simp only [h]
  · rfl

/-- Witness for C5's amended claim: the canonical span
`{{note(text="hi")}}`. -/
theorem parseShortcode_spec_witness :
    (("note").toList.all isIdentChar = true) ∧
    parseShortcode (buildShortCode ("note").toList
        [⟨("text").toList, ("hi").toList⟩]) =
      Except.ok ⟨("note").toList, [⟨("text").toList, ("hi").toList⟩]⟩ ∧
    parseShortcode c5BadSpan = Except.error 13 := by
  have h := parseShortcode_spec ("note").toList [⟨("text").toList, ("hi").toList⟩]
    (by decide) (by decide)
  exact ⟨by decide, h.1, h.2⟩

end MiniSsg
